import Mathlib

/-!
# The image control of the skins2 interface

A shallow embedding of `modules/gui/skins2/controls/ctrl_image.cpp`.

* The C++ `int` is modelled by `Int`; `/` and `%` on `int` are the truncating
  `Int.tdiv` and `Int.tmod`.
* In the ScaleAndRatioPreserved branch of `draw` every product, difference and
  sum of `int` is reduced by `wrap32`, the 32-bit two's complement value the
  compiled code computes when the exact result does not fit.
* The mosaic loops are kept in `Int`: with bounds and tile sizes that are
  positive `int` the counters `width` and `height` cannot overflow, and the
  destination coordinates are exact as long as the tiled rectangle lies within
  the `int` range, which the theorem on the covered points assumes.
* Pointers to bitmaps are modelled by the bitmap values themselves.
* The destination surface `rImage` of `draw` is modelled by the list of
  `drawGraphics` calls issued on it, in order.
* Executed commands are modelled by the list of commands, in order.
* A `while` loop takes a bound on its number of iterations and faults with
  `Fault.outOfFuel` when the bound is reached.
-/

namespace Skins2

/-- The resize policy `CtrlImage::resize_t`. -/
inductive resize_t
  | kMosaic
  | kScale
  | kScaleAndRatioPreserved
  deriving DecidableEq, Repr

/-- Modelled from the spec: the class `GenericBitmap` (a pixel source with a
width and a height, read-only) is declared outside this file; `name` stands
for its identity. -/
structure GenericBitmap where
  name : String
  width : Int
  height : Int
  deriving DecidableEq, Repr

/-- Accessor `GenericBitmap::getWidth`. -/
def GenericBitmap.getWidth (b : GenericBitmap) : Int := b.width

/-- Accessor `GenericBitmap::getHeight`. -/
def GenericBitmap.getHeight (b : GenericBitmap) : Int := b.height

/-- Modelled from the spec: what `drawBitmap` was given. Either a bitmap as it
is, or a `ScaledBitmap( getIntf(), source, width, height )`, the bitmap-scaling
utility "resampled to target width/height from a source bitmap". -/
inductive Picture
  | plain (source : GenericBitmap)
  | scaled (source : GenericBitmap) (width height : Int)
  deriving DecidableEq, Repr

/-- Modelled from the spec: the class `OSGraphics` (an off-screen surface "of
given pixel dimensions") is declared outside this file. A surface reports the
size it was created with and remembers the bitmaps drawn on it. -/
structure OSGraphics where
  width : Int
  height : Int
  drawn : List Picture
  deriving DecidableEq, Repr

/-- Accessor `OSGraphics::getWidth`. -/
def OSGraphics.getWidth (g : OSGraphics) : Int := g.width

/-- Accessor `OSGraphics::getHeight`. -/
def OSGraphics.getHeight (g : OSGraphics) : Int := g.height

/-- Modelled from the spec: `OSFactory::createOSGraphics( width, height )`,
"create an off-screen surface of given pixel dimensions". -/
def createOSGraphics (width height : Int) : OSGraphics :=
  { width := width, height := height, drawn := [] }

/-- Modelled from the spec: `OSGraphics::drawBitmap`, "draw a bitmap ... onto
itself"; the size of the surface does not change. -/
def OSGraphics.drawBitmap (g : OSGraphics) (p : Picture) : OSGraphics :=
  { g with drawn := g.drawn ++ [p] }

/-- One call `rImage.drawGraphics( src, xSrc, ySrc, xDest, yDest, width, height )`
on the destination surface. `size` is `none` when the call passes no width and
height (the whole source is drawn). -/
structure Blit where
  src : OSGraphics
  xSrc : Int
  ySrc : Int
  xDest : Int
  yDest : Int
  size : Option (Int × Int)
  deriving DecidableEq, Repr

/-- Modelled from the spec: the layout bounds returned by `getPosition()`
("current control bounds ... or absent if not yet laid out"); only the width
and the height are read by this file. -/
structure Position where
  width : Int
  height : Int
  deriving DecidableEq, Repr

/-- Accessor `Position::getWidth`. -/
def Position.getWidth (p : Position) : Int := p.width

/-- Accessor `Position::getHeight`. -/
def Position.getHeight (p : Position) : Int := p.height

/-- The commands `handleEvent` can execute: the four dialog commands of
`cmd_dialogs.hpp` and the command bound to the control (`m_rCommand`). -/
inductive Cmd
  | CmdDlgShowPopupMenu
  | CmdDlgHidePopupMenu
  | CmdDlgHideVideoPopupMenu
  | CmdDlgHideAudioPopupMenu
  | CmdDlgHideMiscPopupMenu
  | bound (name : String)
  deriving DecidableEq, Repr

/-- What `onUpdate` does besides changing the control: the debug message and
the layout notification. -/
inductive Effect
  | msgDbg (str : String) (w h : Int)
  | notifyLayout
  deriving DecidableEq, Repr

/-- The ways an execution can fail to return. -/
inductive Fault
  | outOfFuel
  | nullDeref
  | divByZero
  deriving DecidableEq, Repr

/-- The fields of `CtrlImage`. -/
structure CtrlImage where
  m_pBitmap : GenericBitmap
  m_pOriginalBitmap : GenericBitmap
  m_pImage : OSGraphics
  m_rCommand : String
  m_resizeMethod : resize_t
  m_art : Bool
  m_x : Int
  m_y : Int
  deriving DecidableEq, Repr

/-- The string-valued variable handed to `onUpdate`; `addr` is its address. -/
structure VarString where
  addr : Nat
  get : String
  deriving DecidableEq, Repr

/-- Modelled from the spec: the macro `__MIN` is defined outside this file; the
smaller of two values ("clipping ... to the remaining width/height"). -/
def __MIN (a b : Int) : Int := if a < b then a else b

/-- The value a 32-bit `int` holds after an operation whose exact result is
`x`: `x` itself when it lies in [-2^31, 2^31), else `x` reduced modulo 2^32
into that range. -/
def wrap32 (x : Int) : Int := (x + 2147483648) % 4294967296 - 2147483648

/-- Division of `int` by `int`: truncating, and a fault on a zero divisor. -/
def idiv (a b : Int) : Except Fault Int :=
  if b = 0 then .error .divByZero else .ok (a.tdiv b)

/-- Remainder of `int` by `int`: truncating, and a fault on a zero divisor. -/
def imod (a b : Int) : Except Fault Int :=
  if b = 0 then .error .divByZero else .ok (a.tmod b)

/-- The constructor `CtrlImage::CtrlImage`: both bitmap fields refer to the given
bitmap, the offsets are zero, and the surface is an unscaled copy of the
bitmap. -/
def CtrlImage.create (rBitmap : GenericBitmap) (rCommand : String)
    (resizeMethod : resize_t) (art : Bool) : CtrlImage :=
  { m_pBitmap := rBitmap
    m_pOriginalBitmap := rBitmap
    m_rCommand := rCommand
    m_resizeMethod := resizeMethod
    m_art := art
    m_x := 0
    m_y := 0
    m_pImage :=
      (createOSGraphics rBitmap.getWidth rBitmap.getHeight).drawBitmap (.plain rBitmap) }

/-- The method `CtrlImage::handleEvent`: the commands executed, in order, for
the event whose string is `rEvent`, and the control afterwards. -/
def CtrlImage.handleEvent (c : CtrlImage) (rEvent : String) : CtrlImage × List Cmd :=
  if rEvent = "mouse:right:up:none" then
    (c, [Cmd.CmdDlgShowPopupMenu])
  else if rEvent = "mouse:left:up:none" then
    (c, [Cmd.CmdDlgHidePopupMenu, Cmd.CmdDlgHideVideoPopupMenu,
         Cmd.CmdDlgHideAudioPopupMenu, Cmd.CmdDlgHideMiscPopupMenu])
  else if rEvent = "mouse:left:dblclick:none" then
    (c, [Cmd.bound c.m_rCommand])
  else
    (c, [])

/-- The method `CtrlImage::mouseOver`. `hit` is the pixel test of the surface
(`OSGraphics::hit`), `pPos` the value of `getPosition()`; with no layout the
test `x >= 0` is still made before the null pointer is used. -/
def CtrlImage.mouseOver (hit : OSGraphics → Int → Int → Bool) (pPos : Option Position)
    (c : CtrlImage) (x y : Int) : Except Fault Bool :=
  match pPos with
  | none => if x ≥ 0 then .error .nullDeref else pure false
  | some pos =>
    if x ≥ 0 ∧ x < pos.getWidth ∧ y ≥ 0 ∧ y < pos.getHeight then
      match c.m_resizeMethod with
      | .kMosaic => do
        let x1 ← imod x c.m_pImage.getWidth
        let y1 ← imod y c.m_pImage.getHeight
        pure (hit c.m_pImage x1 y1)
      | .kScaleAndRatioPreserved =>
        pure (hit c.m_pImage (x - c.m_x) (y - c.m_y))
      | .kScale =>
        pure (hit c.m_pImage x y)
    else
      pure false

/-- The inner `while( height > 0 )` loop of the mosaic method: the calls it
issues, from the state (`curYDest`, `height`), in at most the given number of
iterations. -/
def mosaicInner (img : OSGraphics) (xDest curWidth : Int) :
    Nat → Int → Int → Except Fault (List Blit)
  | 0, _, height => if height > 0 then .error .outOfFuel else .ok []
  | fuel + 1, curYDest, height =>
    if height > 0 then
      let curHeight := __MIN height img.getHeight
      (mosaicInner img xDest curWidth fuel (curYDest + curHeight) (height - img.getHeight)).map
        (fun rest => Blit.mk img 0 0 xDest curYDest (some (curWidth, curHeight)) :: rest)
    else .ok []

/-- The outer `while( width > 0 )` loop of the mosaic method, from the state
(`xDest`, `width`); `posHeight` is `pPos->getHeight()`. -/
def mosaicOuter (img : OSGraphics) (posHeight yDest : Int) (innerFuel : Nat) :
    Nat → Int → Int → Except Fault (List Blit)
  | 0, _, width => if width > 0 then .error .outOfFuel else .ok []
  | fuel + 1, xDest, width =>
    if width > 0 then
      let curWidth := __MIN width img.getWidth
      match mosaicInner img xDest curWidth innerFuel yDest posHeight with
      | .error e => .error e
      | .ok column =>
        (mosaicOuter img posHeight yDest innerFuel fuel (xDest + curWidth)
            (width - img.getWidth)).map (fun rest => column ++ rest)
    else .ok []

/-- The method `CtrlImage::draw`: the control afterwards and the calls issued
on the destination surface, in order. `pPos` is the value of `getPosition()`,
`fuel` bounds the iterations of each loop. -/
def CtrlImage.draw (pPos : Option Position) (fuel : Nat) (c : CtrlImage)
    (xDest yDest : Int) : Except Fault (CtrlImage × List Blit) :=
  match pPos with
  | none => .ok (c, [])
  | some pos =>
    let width := pos.getWidth
    let height := pos.getHeight
    if width ≤ 0 ∨ height ≤ 0 then .ok (c, [])
    else if c.m_resizeMethod = .kScale then
      let img :=
        if width ≠ c.m_pImage.getWidth ∨ height ≠ c.m_pImage.getHeight then
          (createOSGraphics width height).drawBitmap (.scaled c.m_pBitmap width height)
        else c.m_pImage
      .ok ({ c with m_pImage := img }, [Blit.mk img 0 0 xDest yDest none])
    else if c.m_resizeMethod = .kMosaic then
      (mosaicOuter c.m_pImage pos.getHeight yDest fuel fuel xDest width).map
        (fun blits => (c, blits))
    else if c.m_resizeMethod = .kScaleAndRatioPreserved then do
      let w0 := c.m_pBitmap.getWidth
      let h0 := c.m_pBitmap.getHeight
      let scaled_height ← idiv (wrap32 (width * h0)) w0
      let scaled_width ← idiv (wrap32 (height * w0)) h0
      let (w, h, mx, my) :=
        if scaled_height > height then
          (scaled_width, height, (wrap32 (width - scaled_width)).tdiv 2, (0 : Int))
        else
          (width, scaled_height, (0 : Int), (wrap32 (height - scaled_height)).tdiv 2)
      let img :=
        if w ≠ c.m_pImage.getWidth ∨ h ≠ c.m_pImage.getHeight then
          (createOSGraphics w h).drawBitmap (.scaled c.m_pBitmap w h)
        else c.m_pImage
      pure ({ c with m_pImage := img, m_x := mx, m_y := my },
            [Blit.mk img 0 0 (wrap32 (xDest + mx)) (wrap32 (yDest + my)) none])
    else .ok (c, [])

/-- The method `CtrlImage::onUpdate`. `getArtBitmap` is the lookup of the art
cache (`ArtBitmap::getArtBitmap`), `streamArtVar` the address of the variable
`getStreamArtVar()` of `VlcProc`. -/
def CtrlImage.onUpdate (getArtBitmap : String → Option GenericBitmap) (streamArtVar : Nat)
    (c : CtrlImage) (rVariable : VarString) : CtrlImage × List Effect :=
  if rVariable.addr = streamArtVar then
    let str := rVariable.get
    let pArt := getArtBitmap str
    let bitmap := match pArt with
      | some art => art
      | none => c.m_pOriginalBitmap
    ({ c with
        m_pBitmap := bitmap
        m_pImage :=
          (createOSGraphics bitmap.getWidth bitmap.getHeight).drawBitmap (.plain bitmap) },
     [Effect.msgDbg str bitmap.getWidth bitmap.getHeight, Effect.notifyLayout])
  else
    (c, [])

/-- A call that can change the control: `draw( rImage, xDest, yDest )` or
`onUpdate( rVariable )`. -/
inductive Call
  | draw (xDest yDest : Int)
  | onUpdate (rVariable : VarString)
  deriving DecidableEq, Repr

/-- The control after one call, under fixed layout bounds `pPos`. -/
def CtrlImage.call (getArtBitmap : String → Option GenericBitmap) (streamArtVar : Nat)
    (pPos : Option Position) (fuel : Nat) (c : CtrlImage) : Call → Except Fault CtrlImage
  | .draw xDest yDest => (c.draw pPos fuel xDest yDest).map Prod.fst
  | .onUpdate rVariable => .ok (c.onUpdate getArtBitmap streamArtVar rVariable).1

/-- The control after a sequence of calls, first call first. -/
def CtrlImage.calls (getArtBitmap : String → Option GenericBitmap) (streamArtVar : Nat)
    (pPos : Option Position) (fuel : Nat) (c : CtrlImage) : List Call → Except Fault CtrlImage
  | [] => .ok c
  | k :: ks =>
    match c.call getArtBitmap streamArtVar pPos fuel k with
    | .error e => .error e
    | .ok c1 => c1.calls getArtBitmap streamArtVar pPos fuel ks

/-- Whether the surface is still as the last `draw` left it, after one more
call: a `draw` leaves it drawn, an `onUpdate` of the stream-art variable
rebuilds it from the bitmap, an `onUpdate` of another variable keeps it. -/
def drawnAfter (streamArtVar : Nat) (drawn : Bool) : Call → Bool
  | .draw _ _ => true
  | .onUpdate rVariable => drawn && decide (rVariable.addr ≠ streamArtVar)

/-- Whether a sequence of calls on a new control leaves the surface drawn:
some `draw` was called, and no `onUpdate` of the stream-art variable came after
the last `draw`. -/
def drawnSinceUpdate (streamArtVar : Nat) (ks : List Call) : Bool :=
  ks.foldl (drawnAfter streamArtVar) false

/-- The size the specification asks of the surface under ScaleAndRatioPreserved:
the largest size of the aspect ratio `w0 : h0` within `W` by `H`, fitted to the
height when the height implied by the width overflows, else to the width. -/
def specFittedSize (W H w0 h0 : Int) : Int × Int :=
  if H < W * h0 / w0 then (H * w0 / h0, H) else (W, W * h0 / w0)

/-- The size the specification asks of the surface for control bounds `W` by
`H`, by resize policy. -/
def specRequiredSize (c : CtrlImage) (W H : Int) : Int × Int :=
  match c.m_resizeMethod with
  | .kScale => (W, H)
  | .kMosaic => (c.m_pBitmap.getWidth, c.m_pBitmap.getHeight)
  | .kScaleAndRatioPreserved =>
    specFittedSize W H c.m_pBitmap.getWidth c.m_pBitmap.getHeight

/-- The number of tiles of extent `tile` needed to span `total`. -/
def tileCount (total tile : Int) : Nat := ((total + tile - 1) / tile).toNat

/-- Modelled from the spec: the destination points a `drawGraphics` call
writes ("draw ... another surface onto itself at an offset, optionally with an
explicit sub-rectangle"). The call asks for the rectangle of the given size
(the size of the source when none is given) at (`xDest`, `yDest`), and a point
of it is written only where the point it is copied from, at the same offset
from (`xSrc`, `ySrc`), lies on the source surface: nothing is written beyond
what the source holds. -/
def Blit.covers (b : Blit) (px py : Int) : Prop :=
  let w := match b.size with
    | some (w, _) => w
    | none => b.src.getWidth
  let h := match b.size with
    | some (_, h) => h
    | none => b.src.getHeight
  (b.xDest ≤ px ∧ px < b.xDest + w
      ∧ 0 ≤ b.xSrc + (px - b.xDest) ∧ b.xSrc + (px - b.xDest) < b.src.getWidth)
    ∧ (b.yDest ≤ py ∧ py < b.yDest + h
      ∧ 0 ≤ b.ySrc + (py - b.yDest) ∧ b.ySrc + (py - b.yDest) < b.src.getHeight)

instance (b : Blit) (px py : Int) : Decidable (b.covers px py) := by
  unfold Blit.covers
  exact inferInstance

/-- Whether the two products `draw` forms under ScaleAndRatioPreserved for
bounds `W` by `H` and the bitmap `b`, `width * h0` and `height * w0`, fit in a
32-bit `int`. -/
def fitsInt (W H : Int) (b : GenericBitmap) : Prop :=
  W * b.getHeight < 2147483648 ∧ H * b.getWidth < 2147483648

instance (W H : Int) (b : GenericBitmap) : Decidable (fitsInt W H b) := by
  unfold fitsInt
  exact inferInstance

/-- The invariant of the control under fixed bounds `W` by `H`; `drawn` tells
whether the surface is as the last `draw` left it. -/
def SurfaceInv (W H : Int) (c : CtrlImage) (drawn : Bool) : Prop :=
  (0 < c.m_pBitmap.getWidth ∧ 0 < c.m_pBitmap.getHeight)
    ∧ (0 < c.m_pOriginalBitmap.getWidth ∧ 0 < c.m_pOriginalBitmap.getHeight)
    ∧ (c.m_resizeMethod = .kScaleAndRatioPreserved →
        fitsInt W H c.m_pBitmap ∧ fitsInt W H c.m_pOriginalBitmap)
    ∧ (c.m_resizeMethod = .kMosaic →
        (c.m_pImage.getWidth, c.m_pImage.getHeight)
          = (c.m_pBitmap.getWidth, c.m_pBitmap.getHeight))
    ∧ (drawn = true →
        (c.m_pImage.getWidth, c.m_pImage.getHeight) = specRequiredSize c W H)
    ∧ (drawn = false →
        (c.m_pImage.getWidth, c.m_pImage.getHeight)
          = (c.m_pBitmap.getWidth, c.m_pBitmap.getHeight))

/-! ## Arithmetic of the tiling and of the fitting -/

theorem tmod_eq_emod_of_nonneg (x n : Int) (hx : 0 ≤ x) : x.tmod n = x % n := by
  rcases le_total 0 n with hn | hn
  · exact Int.tmod_eq_emod hx hn
  · have h := Int.tmod_eq_emod hx (Int.neg_nonneg_of_nonpos hn)
    rwa [Int.tmod_neg, Int.emod_neg] at h

theorem fit_height_width_lt (W H w0 h0 : Int) (hW : 0 < W) (hH : 0 < H) (hw0 : 0 < w0)
    (hh0 : 0 < h0) (hfit : H < (W * h0).tdiv w0) :
    0 ≤ (H * w0).tdiv h0 ∧ (H * w0).tdiv h0 < W := by
  have hWh : 0 ≤ W * h0 := by positivity
  have hHw : 0 ≤ H * w0 := by positivity
  rw [Int.tdiv_eq_ediv hWh hw0.le] at hfit
  rw [Int.tdiv_eq_ediv hHw hh0.le]
  have h1 : (H + 1) * w0 ≤ W * h0 := (Int.le_ediv_iff_mul_le hw0).mp hfit
  refine ⟨Int.ediv_nonneg hHw hh0.le, Int.ediv_lt_of_lt_mul hh0 ?_⟩
  nlinarith

theorem fit_width_height_nonneg (W w0 h0 : Int) (hW : 0 < W) (hw0 : 0 < w0) (hh0 : 0 < h0) :
    0 ≤ (W * h0).tdiv w0 :=
  Int.tdiv_nonneg (by positivity) hw0.le

theorem wrap32_of_range (x : Int) (hlo : -2147483648 ≤ x) (hhi : x < 2147483648) :
    wrap32 x = x := by
  unfold wrap32
  omega

theorem tileCount_of_nonpos (total tile : Int) (htile : 0 < tile) (h : total ≤ 0) :
    tileCount total tile = 0 := by
  unfold tileCount
  have : (total + tile - 1) / tile ≤ 0 := by
    have h1 : (total + tile - 1) / tile < 1 := Int.ediv_lt_of_lt_mul htile (by omega)
    omega
  omega

theorem tileCount_step (total tile : Int) (htile : 0 < tile) (h : 0 < total) :
    tileCount total tile = tileCount (total - tile) tile + 1 := by
  unfold tileCount
  have h1 : total + tile - 1 = (total - tile + tile - 1) + tile := by ring
  have h2 : (total + tile - 1) / tile = (total - tile + tile - 1) / tile + 1 := by
    rw [h1, Int.add_ediv_of_dvd_right (dvd_refl tile), Int.ediv_self htile.ne.symm]
  have h3 : 0 ≤ (total - tile + tile - 1) / tile := Int.ediv_nonneg (by omega) htile.le
  rw [h2]
  omega

theorem tileCount_pos_iff (total tile : Int) (htile : 0 < tile) :
    0 < tileCount total tile ↔ 0 < total := by
  constructor
  · intro h
    by_contra hn
    rw [tileCount_of_nonpos total tile htile (by omega)] at h
    omega
  · intro h
    rw [tileCount_step total tile htile h]
    omega

theorem tileCount_bounds (total tile : Int) (htile : 0 < tile) (h : 0 < total) :
    ((tileCount total tile : Int) - 1) * tile < total
      ∧ total ≤ (tileCount total tile : Int) * tile := by
  have hq : 0 ≤ (total + tile - 1) / tile := Int.ediv_nonneg (by omega) htile.le
  have hcast : (tileCount total tile : Int) = (total + tile - 1) / tile := by
    unfold tileCount
    exact Int.toNat_of_nonneg hq
  have h1 : (total + tile - 1) / tile * tile ≤ total + tile - 1 := Int.ediv_mul_le _ htile.ne.symm
  have h2 : total + tile - 1 < ((total + tile - 1) / tile + 1) * tile :=
    Int.lt_ediv_add_one_mul_self _ htile
  rw [hcast]
  constructor <;> nlinarith

theorem tileCount_eq_ceil (total tile : Int) (htile : 0 < tile) (h : 0 < total) :
    ⌈(total : ℚ) / (tile : ℚ)⌉ = (tileCount total tile : Int) := by
  obtain ⟨h1, h2⟩ := tileCount_bounds total tile htile h
  have ht : (0 : ℚ) < (tile : ℚ) := by exact_mod_cast htile
  rw [Int.ceil_eq_iff]
  constructor
  · rw [lt_div_iff₀ ht]
    exact_mod_cast h1
  · rw [div_le_iff₀ ht]
    exact_mod_cast h2

theorem min_last_tile (total tile : Int) (htile : 0 < tile) (h : 0 < total) (i : Nat)
    (hi : i < tileCount total tile) :
    __MIN (total - i * tile) tile
      = if (i : Int) + 1 < (tileCount total tile : Int) then tile else total - i * tile := by
  obtain ⟨h1, h2⟩ := tileCount_bounds total tile htile h
  unfold __MIN
  by_cases hlast : (i : Int) + 1 < (tileCount total tile : Int)
  · have h3 : ((i : Int) + 1) * tile ≤ ((tileCount total tile : Int) - 1) * tile :=
      Int.mul_le_mul_of_nonneg_right (by omega) htile.le
    have h4 : ¬ (total - i * tile < tile) := by nlinarith
    simp only [hlast, h4, if_true, if_false]
  · have hi' : (i : Int) + 1 = (tileCount total tile : Int) := by omega
    rw [← hi'] at h2
    by_cases h5 : total - i * tile < tile
    · simp only [hlast, h5, if_true, if_false]
    · have h6 : total - i * tile = tile := by nlinarith
      rw [if_neg h5, if_neg hlast]
      exact h6.symm

theorem tile_span (origin total tile : Int) (htile : 0 < tile) (i : Nat) (p : Int) :
    (origin + i * tile ≤ p ∧ p < origin + i * tile + __MIN (total - i * tile) tile)
      ↔ (origin ≤ p ∧ p < origin + total ∧ (p - origin) / tile = (i : Int)) := by
  have hi : (0 : Int) ≤ (i : Int) * tile := by positivity
  have hdiv : (p - origin) / tile = (i : Int)
      ↔ (i : Int) * tile ≤ p - origin ∧ p - origin < ((i : Int) + 1) * tile := by
    rw [← Int.le_ediv_iff_mul_le htile, ← Int.ediv_lt_iff_lt_mul htile]
    omega
  rw [hdiv]
  unfold __MIN
  split_ifs with hmin
  · constructor
    · rintro ⟨h1, h2⟩
      refine ⟨by omega, by omega, by omega, by nlinarith⟩
    · rintro ⟨h1, h2, h3, h4⟩
      exact ⟨by omega, by omega⟩
  · constructor
    · rintro ⟨h1, h2⟩
      refine ⟨by omega, by omega, by omega, by nlinarith⟩
    · rintro ⟨h1, h2, h3, h4⟩
      refine ⟨by omega, by nlinarith⟩

/-! ## draw with degenerate bounds -/

/-- C7: for every resize policy and every state of the control, draw with an
absent layout, or with a layout of width <= 0 or height <= 0, returns with no
blit and leaves the control as it was (surface, active bitmap, offsets and all
other fields). -/
theorem draw_degenerate_noop (c : CtrlImage) (pPos : Option Position) (fuel : Nat)
    (xDest yDest : Int)
    (h : pPos = none ∨ ∃ pos, pPos = some pos ∧ (pos.getWidth ≤ 0 ∨ pos.getHeight ≤ 0)) :
    c.draw pPos fuel xDest yDest = .ok (c, []) := by
  rcases h with h | ⟨pos, h, hdeg⟩
  · subst h; rfl
  · subst h
    simp only [CtrlImage.draw, hdeg, if_true]

theorem draw_degenerate_noop_witness :
    (CtrlImage.create ⟨"a", 3, 2⟩ "cmd" .kMosaic false).draw (some ⟨0, 5⟩) 0 100 200
      = .ok (CtrlImage.create ⟨"a", 3, 2⟩ "cmd" .kMosaic false, []) :=
  draw_degenerate_noop (CtrlImage.create ⟨"a", 3, 2⟩ "cmd" .kMosaic false) (some ⟨0, 5⟩) 0
    100 200 (Or.inr ⟨⟨0, 5⟩, rfl, Or.inl (by decide)⟩)

/-! ## handleEvent -/

/-- C8: handleEvent executes the show-popup command for "mouse:right:up:none";
the hide-popup, hide-video-popup, hide-audio-popup and hide-misc-popup
commands, in that order, for "mouse:left:up:none"; the bound command of the
control for "mouse:left:dblclick:none"; and no command for any other event
string. It leaves the control as it was. -/
theorem handleEvent_table (c : CtrlImage) (s : String) :
    (c.handleEvent s).1 = c ∧
    (s = "mouse:right:up:none" → (c.handleEvent s).2 = [Cmd.CmdDlgShowPopupMenu]) ∧
    (s = "mouse:left:up:none" → (c.handleEvent s).2 =
      [Cmd.CmdDlgHidePopupMenu, Cmd.CmdDlgHideVideoPopupMenu,
       Cmd.CmdDlgHideAudioPopupMenu, Cmd.CmdDlgHideMiscPopupMenu]) ∧
    (s = "mouse:left:dblclick:none" → (c.handleEvent s).2 = [Cmd.bound c.m_rCommand]) ∧
    (s ≠ "mouse:right:up:none" → s ≠ "mouse:left:up:none" → s ≠ "mouse:left:dblclick:none" →
      (c.handleEvent s).2 = []) := by
  refine ⟨?_, ?_, ?_, ?_, ?_⟩
  · unfold CtrlImage.handleEvent
    split_ifs <;> rfl
  · intro h; subst h; rfl
  · intro h; subst h; rfl
  · intro h; subst h; rfl
  · intro h1 h2 h3
    simp only [CtrlImage.handleEvent, h1, h2, h3, if_false]

theorem handleEvent_table_witness :
    ((CtrlImage.create ⟨"a", 3, 2⟩ "play" .kScale false).handleEvent
        "mouse:left:dblclick:none").2 = [Cmd.bound "play"]
      ∧ ((CtrlImage.create ⟨"a", 3, 2⟩ "play" .kScale false).handleEvent
        "mouse:left:down:none").2 = [] :=
  ⟨(handleEvent_table (CtrlImage.create ⟨"a", 3, 2⟩ "play" .kScale false)
      "mouse:left:dblclick:none").2.2.2.1 rfl,
   (handleEvent_table (CtrlImage.create ⟨"a", 3, 2⟩ "play" .kScale false)
      "mouse:left:down:none").2.2.2.2 (by decide) (by decide) (by decide)⟩

/-! ## mouseOver -/

/-- C5: with layout bounds present, for every resize policy and every point
(x, y): mouseOver is false when the point lies outside
[0, width) x [0, height); when it lies inside, mouseOver is the hit test of the
rendered surface at (x mod iw, y mod ih) under Mosaic (iw, ih the nonzero size
of the surface), at (x - m_x, y - m_y) under ScaleAndRatioPreserved, and at
(x, y) under Scale. -/
theorem mouseOver_spec (hit : OSGraphics → Int → Int → Bool) (pos : Position)
    (c : CtrlImage) (x y : Int) :
    (¬ (0 ≤ x ∧ x < pos.getWidth ∧ 0 ≤ y ∧ y < pos.getHeight) →
      c.mouseOver hit (some pos) x y = .ok false) ∧
    ((0 ≤ x ∧ x < pos.getWidth ∧ 0 ≤ y ∧ y < pos.getHeight) →
      (c.m_resizeMethod = .kMosaic → c.m_pImage.getWidth ≠ 0 → c.m_pImage.getHeight ≠ 0 →
        c.mouseOver hit (some pos) x y
          = .ok (hit c.m_pImage (x % c.m_pImage.getWidth) (y % c.m_pImage.getHeight))) ∧
      (c.m_resizeMethod = .kScaleAndRatioPreserved →
        c.mouseOver hit (some pos) x y = .ok (hit c.m_pImage (x - c.m_x) (y - c.m_y))) ∧
      (c.m_resizeMethod = .kScale →
        c.mouseOver hit (some pos) x y = .ok (hit c.m_pImage x y))) := by
  constructor
  · intro hout
    have hout' : ¬ (x ≥ 0 ∧ x < pos.getWidth ∧ y ≥ 0 ∧ y < pos.getHeight) := hout
    simp only [CtrlImage.mouseOver, hout', if_false]
    rfl
  · intro hin
    have hin' : x ≥ 0 ∧ x < pos.getWidth ∧ y ≥ 0 ∧ y < pos.getHeight := hin
    refine ⟨?_, ?_, ?_⟩
    · intro hpol hw hh
      simp only [CtrlImage.mouseOver, hin', hpol, if_true, imod, hw, hh, if_false]
      rw [← tmod_eq_emod_of_nonneg x _ hin.1, ← tmod_eq_emod_of_nonneg y _ hin.2.2.1]
      rfl
    · intro hpol
      simp only [CtrlImage.mouseOver, hin', hpol, if_true]
      rfl
    · intro hpol
      simp only [CtrlImage.mouseOver, hin', hpol, if_true]
      rfl

theorem mouseOver_spec_witness :
    (CtrlImage.create ⟨"a", 3, 2⟩ "cmd" .kMosaic false).mouseOver
        (fun _ x y => decide (x = 1 ∧ y = 1)) (some ⟨10, 10⟩) 10 5 = .ok false
      ∧ (CtrlImage.create ⟨"a", 3, 2⟩ "cmd" .kMosaic false).mouseOver
        (fun _ x y => decide (x = 1 ∧ y = 1)) (some ⟨10, 10⟩) 7 5 = .ok true :=
  ⟨(mouseOver_spec (fun _ x y => decide (x = 1 ∧ y = 1)) ⟨10, 10⟩
      (CtrlImage.create ⟨"a", 3, 2⟩ "cmd" .kMosaic false) 10 5).1 (by decide),
   ((mouseOver_spec (fun _ x y => decide (x = 1 ∧ y = 1)) ⟨10, 10⟩
      (CtrlImage.create ⟨"a", 3, 2⟩ "cmd" .kMosaic false) 7 5).2 (by decide)).1
      rfl (by decide) (by decide)⟩

/-! ## draw under Scale -/

theorem draw_scale_cases (c : CtrlImage) (fuel : Nat) (W H xDest yDest : Int)
    (hpol : c.m_resizeMethod = .kScale) (hW : 0 < W) (hH : 0 < H) :
    ∃ c', c.draw (some ⟨W, H⟩) fuel xDest yDest
          = .ok (c', [Blit.mk c'.m_pImage 0 0 xDest yDest none])
      ∧ c'.m_pBitmap = c.m_pBitmap ∧ c'.m_pOriginalBitmap = c.m_pOriginalBitmap
      ∧ c'.m_resizeMethod = c.m_resizeMethod
      ∧ c'.m_pImage.getWidth = W ∧ c'.m_pImage.getHeight = H := by
  have hdeg : ¬ (W ≤ 0 ∨ H ≤ 0) := by omega
  obtain ⟨bmp, orig, img, cmd, pol, art, mx, my⟩ := c
  simp only at hpol
  subst hpol
  by_cases hsz : W ≠ img.getWidth ∨ H ≠ img.getHeight
  · refine ⟨⟨bmp, orig, (createOSGraphics W H).drawBitmap (.scaled bmp W H), cmd, .kScale,
        art, mx, my⟩, ?_, rfl, rfl, rfl, rfl, rfl⟩
    simp only [CtrlImage.draw, Position.getWidth, Position.getHeight, hdeg, hsz,
      if_true, if_false]
  · refine ⟨⟨bmp, orig, img, cmd, .kScale, art, mx, my⟩, ?_, rfl, rfl, rfl, ?_, ?_⟩
    · simp only [CtrlImage.draw, Position.getWidth, Position.getHeight, hdeg, hsz,
        if_true, if_false]
    · simp only [ne_eq, not_or, not_not] at hsz
      exact hsz.1.symm
    · simp only [ne_eq, not_or, not_not] at hsz
      exact hsz.2.symm

/-- C1: under Scale, with bounds W > 0 and H > 0 and whatever the surface was
before, draw returns with exactly one blit, of the rendered surface, at
(xDest, yDest), and the rendered surface then has size exactly (W, H). -/
theorem draw_scale_exact (c : CtrlImage) (fuel : Nat) (W H xDest yDest : Int)
    (hpol : c.m_resizeMethod = .kScale) (hW : 0 < W) (hH : 0 < H) :
    ∃ c', c.draw (some ⟨W, H⟩) fuel xDest yDest
          = .ok (c', [Blit.mk c'.m_pImage 0 0 xDest yDest none])
      ∧ c'.m_pImage.getWidth = W ∧ c'.m_pImage.getHeight = H := by
  obtain ⟨c', hd, -, -, -, hw, hh⟩ := draw_scale_cases c fuel W H xDest yDest hpol hW hH
  exact ⟨c', hd, hw, hh⟩

theorem draw_scale_exact_witness :
    ∃ c', (CtrlImage.create ⟨"a", 3, 2⟩ "cmd" .kScale false).draw (some ⟨7, 5⟩) 0 100 200
          = .ok (c', [Blit.mk c'.m_pImage 0 0 100 200 none])
      ∧ c'.m_pImage.getWidth = 7 ∧ c'.m_pImage.getHeight = 5 :=
  draw_scale_exact (CtrlImage.create ⟨"a", 3, 2⟩ "cmd" .kScale false) 0 7 5 100 200 rfl
    (by decide) (by decide)

/-! ## draw under ScaleAndRatioPreserved -/

theorem draw_ratio_cases (c : CtrlImage) (fuel : Nat) (W H xDest yDest : Int)
    (hpol : c.m_resizeMethod = .kScaleAndRatioPreserved) (hW : 0 < W) (hH : 0 < H)
    (hw0 : 0 < c.m_pBitmap.getWidth) (hh0 : 0 < c.m_pBitmap.getHeight)
    (hfits : fitsInt W H c.m_pBitmap) :
    ∃ c', c.draw (some ⟨W, H⟩) fuel xDest yDest
          = .ok (c', [Blit.mk c'.m_pImage 0 0 (wrap32 (xDest + c'.m_x))
              (wrap32 (yDest + c'.m_y)) none])
      ∧ c'.m_pBitmap = c.m_pBitmap ∧ c'.m_pOriginalBitmap = c.m_pOriginalBitmap
      ∧ c'.m_resizeMethod = c.m_resizeMethod
      ∧ ((H < (W * c.m_pBitmap.getHeight).tdiv c.m_pBitmap.getWidth
            ∧ c'.m_pImage.getWidth = (H * c.m_pBitmap.getWidth).tdiv c.m_pBitmap.getHeight
            ∧ c'.m_pImage.getHeight = H
            ∧ c'.m_x = (W - (H * c.m_pBitmap.getWidth).tdiv c.m_pBitmap.getHeight).tdiv 2
            ∧ c'.m_y = 0)
        ∨ ((W * c.m_pBitmap.getHeight).tdiv c.m_pBitmap.getWidth ≤ H
            ∧ c'.m_pImage.getWidth = W
            ∧ c'.m_pImage.getHeight = (W * c.m_pBitmap.getHeight).tdiv c.m_pBitmap.getWidth
            ∧ c'.m_x = 0
            ∧ c'.m_y = (H - (W * c.m_pBitmap.getHeight).tdiv c.m_pBitmap.getWidth).tdiv 2)) := by
  have hdeg : ¬ (W ≤ 0 ∨ H ≤ 0) := by omega
  obtain ⟨bmp, orig, img, cmd, pol, art, mx, my⟩ := c
  simp only at hpol hw0 hh0
  simp only [fitsInt] at hfits
  obtain ⟨hWh, hHw⟩ := hfits
  subst hpol
  have hw0n : bmp.getWidth ≠ 0 := hw0.ne.symm
  have hh0n : bmp.getHeight ≠ 0 := hh0.ne.symm
  have hWh0 : 0 ≤ W * bmp.getHeight := by positivity
  have hHw0 : 0 ≤ H * bmp.getWidth := by positivity
  have hWle : W ≤ W * bmp.getHeight := by nlinarith
  have hHle : H ≤ H * bmp.getWidth := by nlinarith
  have e1 : wrap32 (W * bmp.getHeight) = W * bmp.getHeight :=
    wrap32_of_range _ (by omega) hWh
  have e2 : wrap32 (H * bmp.getWidth) = H * bmp.getWidth :=
    wrap32_of_range _ (by omega) hHw
  simp only [CtrlImage.draw, Position.getWidth, Position.getHeight, hdeg, if_false, idiv, hw0n,
    hh0n, reduceCtorEq, bind, Except.bind, pure, Except.pure, if_true, e1, e2]
  by_cases hfit : (W * bmp.getHeight).tdiv bmp.getWidth > H
  · obtain ⟨hs0, hsW⟩ := fit_height_width_lt W H _ _ hW hH hw0 hh0 hfit
    have e3 : wrap32 (W - (H * bmp.getWidth).tdiv bmp.getHeight)
        = W - (H * bmp.getWidth).tdiv bmp.getHeight := wrap32_of_range _ (by omega) (by omega)
    simp only [hfit, if_true, e3]
    by_cases hsz : (H * bmp.getWidth).tdiv bmp.getHeight ≠ img.getWidth ∨ H ≠ img.getHeight
    · simp only [hsz, if_true]
      exact ⟨_, rfl, rfl, rfl, rfl, Or.inl ⟨trivial, rfl, rfl, rfl, rfl⟩⟩
    · simp only [hsz, if_false]
      simp only [ne_eq, not_or, not_not] at hsz
      exact ⟨_, rfl, rfl, rfl, rfl, Or.inl ⟨trivial, hsz.1.symm, hsz.2.symm, rfl, rfl⟩⟩
  · have hs0 := fit_width_height_nonneg W _ _ hW hw0 hh0
    have hsH : (W * bmp.getHeight).tdiv bmp.getWidth ≤ H := not_lt.mp hfit
    have e3 : wrap32 (H - (W * bmp.getHeight).tdiv bmp.getWidth)
        = H - (W * bmp.getHeight).tdiv bmp.getWidth := wrap32_of_range _ (by omega) (by omega)
    simp only [hfit, if_false, e3]
    by_cases hsz : W ≠ img.getWidth ∨ (W * bmp.getHeight).tdiv bmp.getWidth ≠ img.getHeight
    · simp only [hsz, if_true]
      exact ⟨_, rfl, rfl, rfl, rfl, Or.inr ⟨hsH, rfl, rfl, rfl, rfl⟩⟩
    · simp only [hsz, if_false]
      simp only [ne_eq, not_or, not_not] at hsz
      exact ⟨_, rfl, rfl, rfl, rfl, Or.inr ⟨hsH, hsz.1.symm, hsz.2.symm, rfl, rfl⟩⟩

theorem draw_ratio_fitted (c : CtrlImage) (fuel : Nat) (W H xDest yDest : Int)
    (hpol : c.m_resizeMethod = .kScaleAndRatioPreserved)
    (hw0 : 0 < c.m_pBitmap.getWidth) (hh0 : 0 < c.m_pBitmap.getHeight)
    (hW : 0 < W) (hH : 0 < H) (hfits : fitsInt W H c.m_pBitmap) :
    ∃ c', c.draw (some ⟨W, H⟩) fuel xDest yDest
          = .ok (c', [Blit.mk c'.m_pImage 0 0 (wrap32 (xDest + c'.m_x))
              (wrap32 (yDest + c'.m_y)) none])
      ∧ c'.m_pBitmap = c.m_pBitmap ∧ c'.m_pOriginalBitmap = c.m_pOriginalBitmap
      ∧ c'.m_resizeMethod = c.m_resizeMethod
      ∧ (c'.m_pImage.getWidth, c'.m_pImage.getHeight)
          = specFittedSize W H c.m_pBitmap.getWidth c.m_pBitmap.getHeight := by
  obtain ⟨c', hdraw, hb, ho, hp, hcase⟩ := draw_ratio_cases c fuel W H xDest yDest hpol hW hH
    hw0 hh0 hfits
  have hWh : 0 ≤ W * c.m_pBitmap.getHeight := by positivity
  have hHw : 0 ≤ H * c.m_pBitmap.getWidth := by positivity
  have eh := Int.tdiv_eq_ediv hWh hw0.le
  have ew := Int.tdiv_eq_ediv hHw hh0.le
  refine ⟨c', hdraw, hb, ho, hp, ?_⟩
  rcases hcase with ⟨hfit, hw, hh, -, -⟩ | ⟨hfit, hw, hh, -, -⟩
  · rw [eh] at hfit
    rw [specFittedSize, if_pos hfit, hw, hh, ew]
  · rw [eh] at hfit
    rw [specFittedSize, if_neg (not_lt.mpr hfit), hw, hh, eh]

/-- Where the products width * h0 and height * w0 fit in an int: under
ScaleAndRatioPreserved, for a bitmap of positive size (w0, h0) and bounds
W > 0, H > 0, draw returns with exactly one blit, of the rendered surface, at
(xDest + m_x, yDest + m_y) as an int; the surface then has the fitted size
(w, h), with w <= W, h <= H, w = W or h = H, 0 <= m_x = (W - w)/2 and
0 <= m_y = (H - h)/2. -/
theorem draw_ratio_within_bounds_of_fits (c : CtrlImage) (fuel : Nat) (W H xDest yDest : Int)
    (hpol : c.m_resizeMethod = .kScaleAndRatioPreserved)
    (hw0 : 0 < c.m_pBitmap.getWidth) (hh0 : 0 < c.m_pBitmap.getHeight)
    (hW : 0 < W) (hH : 0 < H) (hfits : fitsInt W H c.m_pBitmap) :
    ∃ c' w h, c.draw (some ⟨W, H⟩) fuel xDest yDest
          = .ok (c', [Blit.mk c'.m_pImage 0 0 (wrap32 (xDest + c'.m_x))
              (wrap32 (yDest + c'.m_y)) none])
      ∧ (w, h) = specFittedSize W H c.m_pBitmap.getWidth c.m_pBitmap.getHeight
      ∧ c'.m_pImage.getWidth = w ∧ c'.m_pImage.getHeight = h
      ∧ w ≤ W ∧ h ≤ H ∧ (w = W ∨ h = H)
      ∧ 0 ≤ c'.m_x ∧ c'.m_x = (W - w) / 2 ∧ 0 ≤ c'.m_y ∧ c'.m_y = (H - h) / 2 := by
  obtain ⟨c', hdraw, -, -, -, hcase⟩ := draw_ratio_cases c fuel W H xDest yDest hpol hW hH
    hw0 hh0 hfits
  have hWh : 0 ≤ W * c.m_pBitmap.getHeight := by positivity
  have hHw : 0 ≤ H * c.m_pBitmap.getWidth := by positivity
  have eh := Int.tdiv_eq_ediv hWh hw0.le
  have ew := Int.tdiv_eq_ediv hHw hh0.le
  refine ⟨c', c'.m_pImage.getWidth, c'.m_pImage.getHeight, hdraw, ?_, rfl, rfl, ?_⟩
  · rcases hcase with ⟨hfit, hw, hh, -, -⟩ | ⟨hfit, hw, hh, -, -⟩
    · rw [eh] at hfit
      rw [specFittedSize, if_pos hfit, hw, hh, ew]
    · rw [eh] at hfit
      rw [specFittedSize, if_neg (not_lt.mpr hfit), hw, hh, eh]
  · rcases hcase with ⟨hfit, hw, hh, hx, hy⟩ | ⟨hfit, hw, hh, hx, hy⟩
    · obtain ⟨hs0, hsW⟩ := fit_height_width_lt W H _ _ hW hH hw0 hh0 hfit
      have e2 := Int.tdiv_eq_ediv
        (show 0 ≤ W - (H * c.m_pBitmap.getWidth).tdiv c.m_pBitmap.getHeight by omega)
        (show (0 : Int) ≤ 2 by decide)
      rw [hw, hh, hx, hy, e2]
      refine ⟨by omega, le_refl _, Or.inr rfl, ?_, rfl, le_refl _, by simp⟩
      exact Int.ediv_nonneg (by omega) (by decide)
    · have hs0 := fit_width_height_nonneg W _ _ hW hw0 hh0
      have e2 := Int.tdiv_eq_ediv
        (show 0 ≤ H - (W * c.m_pBitmap.getHeight).tdiv c.m_pBitmap.getWidth by omega)
        (show (0 : Int) ≤ 2 by decide)
      rw [hw, hh, hx, hy, e2]
      refine ⟨le_refl _, hfit, Or.inl rfl, le_refl _, by simp, ?_, rfl⟩
      exact Int.ediv_nonneg (by omega) (by decide)

/-- C3, the code at a failing input: under ScaleAndRatioPreserved, for a
1 x 524288 bitmap in 4096 x 100 bounds, the product width * h0 = 2^31 does not
fit in an int. draw then takes scaled_height = -2^31, leaves a surface 4096
wide and -2147483648 high, and sets m_y = -1073741774: the offset is negative
and is not (H - h)/2, and the one blit is issued above the control. -/
theorem draw_ratio_overflow :
    ∃ c', (CtrlImage.create ⟨"a", 1, 524288⟩ "cmd" .kScaleAndRatioPreserved false).draw
          (some ⟨4096, 100⟩) 0 0 0
          = .ok (c', [Blit.mk c'.m_pImage 0 0 0 (-1073741774) none])
      ∧ c'.m_pImage.getWidth = 4096 ∧ c'.m_pImage.getHeight = -2147483648
      ∧ c'.m_x = 0 ∧ c'.m_y = -1073741774
      ∧ ¬ (0 ≤ c'.m_y) ∧ c'.m_y ≠ (100 - c'.m_pImage.getHeight) / 2 :=
  ⟨_, rfl, rfl, rfl, rfl, rfl, by decide, by decide⟩

/-- C2, the claim as stated fails: for a 1 x 1 bitmap in 10 x 10 bounds the
image fills the bounds, and after draw both offsets are zero, so it is not the
case that exactly one of them is zero. -/
theorem draw_ratio_both_offsets_zero :
    ∃ c' blits, (CtrlImage.create ⟨"a", 1, 1⟩ "cmd" .kScaleAndRatioPreserved false).draw
          (some ⟨10, 10⟩) 0 0 0 = .ok (c', blits)
      ∧ c'.m_x = 0 ∧ c'.m_y = 0
      ∧ ¬ ((c'.m_x = 0 ∧ c'.m_y ≠ 0) ∨ (c'.m_x ≠ 0 ∧ c'.m_y = 0)) :=
  ⟨_, _, rfl, rfl, rfl, by decide⟩

/-- C2 as amended: under ScaleAndRatioPreserved, for a bitmap of positive size
(w0, h0) and bounds W > 0, H > 0 whose products W * h0 and H * w0 fit in a
32-bit int, after draw at least one of the offsets m_x, m_y is zero; when the
image is fitted to height (the height implied by the width overflows H) the
surface has height H, m_x = (W - w)/2 and m_y = 0; otherwise the surface has
width W, m_x = 0 and m_y = (H - h)/2, where (w, h) is the size of the surface
after draw. -/
theorem draw_ratio_offsets (c : CtrlImage) (fuel : Nat) (W H xDest yDest : Int)
    (hpol : c.m_resizeMethod = .kScaleAndRatioPreserved)
    (hw0 : 0 < c.m_pBitmap.getWidth) (hh0 : 0 < c.m_pBitmap.getHeight)
    (hW : 0 < W) (hH : 0 < H) (hfits : fitsInt W H c.m_pBitmap) :
    ∃ c' blits, c.draw (some ⟨W, H⟩) fuel xDest yDest = .ok (c', blits)
      ∧ (c'.m_x = 0 ∨ c'.m_y = 0)
      ∧ (H < W * c.m_pBitmap.getHeight / c.m_pBitmap.getWidth →
          c'.m_pImage.getHeight = H ∧ c'.m_x = (W - c'.m_pImage.getWidth) / 2 ∧ c'.m_y = 0)
      ∧ (W * c.m_pBitmap.getHeight / c.m_pBitmap.getWidth ≤ H →
          c'.m_pImage.getWidth = W ∧ c'.m_x = 0 ∧ c'.m_y = (H - c'.m_pImage.getHeight) / 2) := by
  obtain ⟨c', hdraw, -, -, -, hcase⟩ := draw_ratio_cases c fuel W H xDest yDest hpol hW hH
    hw0 hh0 hfits
  have hWh : 0 ≤ W * c.m_pBitmap.getHeight := by positivity
  have eh := Int.tdiv_eq_ediv hWh hw0.le
  refine ⟨c', _, hdraw, ?_⟩
  rcases hcase with ⟨hfit, hw, hh, hx, hy⟩ | ⟨hfit, hw, hh, hx, hy⟩
  · obtain ⟨hs0, hsW⟩ := fit_height_width_lt W H _ _ hW hH hw0 hh0 hfit
    have e2 := Int.tdiv_eq_ediv
      (show 0 ≤ W - (H * c.m_pBitmap.getWidth).tdiv c.m_pBitmap.getHeight by omega)
      (show (0 : Int) ≤ 2 by decide)
    rw [eh] at hfit
    refine ⟨Or.inr hy, fun _ => ⟨hh, ?_, hy⟩, fun hle => absurd hfit (not_lt.mpr hle)⟩
    rw [hx, hw, e2]
  · have hs0 := fit_width_height_nonneg W _ _ hW hw0 hh0
    have e2 := Int.tdiv_eq_ediv
      (show 0 ≤ H - (W * c.m_pBitmap.getHeight).tdiv c.m_pBitmap.getWidth by omega)
      (show (0 : Int) ≤ 2 by decide)
    rw [eh] at hfit
    refine ⟨Or.inl hx, fun hlt => absurd hlt (not_lt.mpr hfit), fun _ => ⟨hw, hx, ?_⟩⟩
    rw [hy, hh, e2]

theorem draw_ratio_offsets_witness :
    ∃ c' blits, (CtrlImage.create ⟨"a", 3, 2⟩ "cmd" .kScaleAndRatioPreserved false).draw
          (some ⟨7, 7⟩) 0 100 200 = .ok (c', blits)
      ∧ (c'.m_x = 0 ∨ c'.m_y = 0)
      ∧ c'.m_pImage.getWidth = 7 ∧ c'.m_y = (7 - c'.m_pImage.getHeight) / 2 := by
  obtain ⟨c', blits, h1, h2, _, h4⟩ := draw_ratio_offsets
    (CtrlImage.create ⟨"a", 3, 2⟩ "cmd" .kScaleAndRatioPreserved false) 0 7 7 100 200 rfl
    (by decide) (by decide) (by decide) (by decide) (by decide)
  obtain ⟨h5, _, h6⟩ := h4 (by decide)
  exact ⟨c', blits, h1, h2, h5, h6⟩

/-! ## draw under Mosaic -/

/-- The tiles of one column, as a list. -/
theorem mosaicInner_eq (img : OSGraphics) (xDest curWidth : Int) (hih : 0 < img.getHeight)
    (fuel : Nat) : ∀ (curYDest height : Int), height.toNat ≤ fuel →
    mosaicInner img xDest curWidth fuel curYDest height
      = .ok ((List.range (tileCount height img.getHeight)).map (fun j : Nat =>
          Blit.mk img 0 0 xDest (curYDest + j * img.getHeight)
            (some (curWidth, __MIN (height - j * img.getHeight) img.getHeight)))) := by
  induction fuel with
  | zero =>
    intro y h hf
    have hh : ¬ h > 0 := by omega
    rw [tileCount_of_nonpos h _ hih (by omega)]
    simp [mosaicInner, hh]
  | succ f ihf =>
    intro y h hf
    by_cases hh : h > 0
    · have hrec := ihf (y + __MIN h img.getHeight) (h - img.getHeight) (by omega)
      simp only [mosaicInner, hh, if_true, hrec, Except.map]
      rw [tileCount_step h _ hih hh, List.range_succ_eq_map, List.map_cons, List.map_map]
      congr 2
      · simp
      · apply List.map_congr_left
        intro j hj
        have hj' : j < tileCount (h - img.getHeight) img.getHeight := List.mem_range.mp hj
        have hpos : 0 < h - img.getHeight :=
          (tileCount_pos_iff _ _ hih).mp (by omega)
        have hmin : __MIN h img.getHeight = img.getHeight := by
          unfold __MIN
          split_ifs <;> omega
        simp only [Function.comp, hmin, Nat.succ_eq_add_one, Nat.cast_add, Nat.cast_one]
        have e1 : y + img.getHeight + (j : Int) * img.getHeight
            = y + ((j : Int) + 1) * img.getHeight := by ring
        have e2 : h - img.getHeight - (j : Int) * img.getHeight
            = h - ((j : Int) + 1) * img.getHeight := by ring
        rw [e1, e2]
    · rw [tileCount_of_nonpos h _ hih (by omega)]
      simp [mosaicInner, hh]

/-- The tiles of the whole mosaic, column after column, as a list. -/
theorem mosaicOuter_eq (img : OSGraphics) (posHeight yDest : Int) (innerFuel : Nat)
    (hiw : 0 < img.getWidth) (hih : 0 < img.getHeight) (hinner : posHeight.toNat ≤ innerFuel)
    (fuel : Nat) : ∀ (xDest width : Int), width.toNat ≤ fuel →
    mosaicOuter img posHeight yDest innerFuel fuel xDest width
      = .ok ((List.range (tileCount width img.getWidth)).flatMap (fun i : Nat =>
          (List.range (tileCount posHeight img.getHeight)).map (fun j : Nat =>
            Blit.mk img 0 0 (xDest + i * img.getWidth) (yDest + j * img.getHeight)
              (some (__MIN (width - i * img.getWidth) img.getWidth,
                     __MIN (posHeight - j * img.getHeight) img.getHeight))))) := by
  induction fuel with
  | zero =>
    intro x w hf
    have hw : ¬ w > 0 := by omega
    rw [tileCount_of_nonpos w _ hiw (by omega)]
    simp [mosaicOuter, hw]
  | succ f ihf =>
    intro x w hf
    by_cases hw : w > 0
    · have hrec := ihf (x + __MIN w img.getWidth) (w - img.getWidth) (by omega)
      have hcol := mosaicInner_eq img x (__MIN w img.getWidth) hih innerFuel yDest posHeight hinner
      simp only [mosaicOuter, hw, if_true, hcol, hrec, Except.map]
      rw [tileCount_step w _ hiw hw, List.range_succ_eq_map, List.flatMap_cons,
        List.flatMap_map]
      congr 2
      · simp
      · apply List.flatMap_congr
        intro i hi
        have hi' : i < tileCount (w - img.getWidth) img.getWidth := List.mem_range.mp hi
        have hpos : 0 < w - img.getWidth :=
          (tileCount_pos_iff _ _ hiw).mp (by omega)
        have hmin : __MIN w img.getWidth = img.getWidth := by
          unfold __MIN
          split_ifs <;> omega
        have e1 : x + img.getWidth + (i : Int) * img.getWidth
            = x + ((i : Int) + 1) * img.getWidth := by ring
        have e2 : w - img.getWidth - (i : Int) * img.getWidth
            = w - ((i : Int) + 1) * img.getWidth := by ring
        simp only [hmin, Nat.succ_eq_add_one, Nat.cast_add, Nat.cast_one, e1, e2]
    · rw [tileCount_of_nonpos w _ hiw (by omega)]
      simp [mosaicOuter, hw]

theorem draw_mosaic_eq (c : CtrlImage) (fuel : Nat) (W H xDest yDest : Int)
    (hpol : c.m_resizeMethod = .kMosaic)
    (hiw : 0 < c.m_pImage.getWidth) (hih : 0 < c.m_pImage.getHeight)
    (hW : 0 < W) (hH : 0 < H) (hfuelW : W.toNat ≤ fuel) (hfuelH : H.toNat ≤ fuel) :
    c.draw (some ⟨W, H⟩) fuel xDest yDest
      = .ok (c, (List.range (tileCount W c.m_pImage.getWidth)).flatMap (fun i : Nat =>
          (List.range (tileCount H c.m_pImage.getHeight)).map (fun j : Nat =>
            Blit.mk c.m_pImage 0 0 (xDest + i * c.m_pImage.getWidth)
              (yDest + j * c.m_pImage.getHeight)
              (some (__MIN (W - i * c.m_pImage.getWidth) c.m_pImage.getWidth,
                     __MIN (H - j * c.m_pImage.getHeight) c.m_pImage.getHeight))))) := by
  have hdeg : ¬ (W ≤ 0 ∨ H ≤ 0) := by omega
  have hloop := mosaicOuter_eq c.m_pImage H yDest fuel hiw hih hfuelH fuel xDest W hfuelW
  simp only [CtrlImage.draw, Position.getWidth, Position.getHeight, hdeg, hpol, if_false,
    reduceCtorEq, if_true, hloop, Except.map]

/-- C4: under Mosaic, with a surface of positive size (iw, ih) and bounds
W > 0, H > 0, the tiling loops of draw terminate (any bound of at least W and
H iterations is enough), issue exactly ceil(W/iw) * ceil(H/ih) blits, column
after column, and every blit has the native size (iw, ih) except the last of
each row, whose width is the remaining width, and the last of each column,
whose height is the remaining height. -/
theorem draw_mosaic_tiles (c : CtrlImage) (fuel : Nat) (W H xDest yDest : Int)
    (hpol : c.m_resizeMethod = .kMosaic)
    (hiw : 0 < c.m_pImage.getWidth) (hih : 0 < c.m_pImage.getHeight)
    (hW : 0 < W) (hH : 0 < H) (hfuelW : W.toNat ≤ fuel) (hfuelH : H.toNat ≤ fuel) :
    ∃ blits, c.draw (some ⟨W, H⟩) fuel xDest yDest = .ok (c, blits)
      ∧ (blits.length : Int)
          = ⌈(W : ℚ) / (c.m_pImage.getWidth : ℚ)⌉ * ⌈(H : ℚ) / (c.m_pImage.getHeight : ℚ)⌉
      ∧ blits = (List.range ⌈(W : ℚ) / (c.m_pImage.getWidth : ℚ)⌉.toNat).flatMap
          (fun i : Nat =>
            (List.range ⌈(H : ℚ) / (c.m_pImage.getHeight : ℚ)⌉.toNat).map (fun j : Nat =>
              Blit.mk c.m_pImage 0 0 (xDest + i * c.m_pImage.getWidth)
                (yDest + j * c.m_pImage.getHeight)
                (some
                  (if (i : Int) + 1 < ⌈(W : ℚ) / (c.m_pImage.getWidth : ℚ)⌉
                    then c.m_pImage.getWidth else W - i * c.m_pImage.getWidth,
                   if (j : Int) + 1 < ⌈(H : ℚ) / (c.m_pImage.getHeight : ℚ)⌉
                    then c.m_pImage.getHeight else H - j * c.m_pImage.getHeight)))) := by
  refine ⟨_, draw_mosaic_eq c fuel W H xDest yDest hpol hiw hih hW hH hfuelW hfuelH, ?_, ?_⟩
  · rw [tileCount_eq_ceil W _ hiw hW, tileCount_eq_ceil H _ hih hH]
    simp [List.length_flatMap, Function.comp_def]
  · rw [tileCount_eq_ceil W _ hiw hW, tileCount_eq_ceil H _ hih hH]
    simp only [Int.toNat_ofNat]
    apply List.flatMap_congr
    intro i hi
    apply List.map_congr_left
    intro j hj
    rw [min_last_tile W _ hiw hW i (List.mem_range.mp hi),
      min_last_tile H _ hih hH j (List.mem_range.mp hj)]

theorem draw_mosaic_tiles_witness :
    ∃ blits, (CtrlImage.create ⟨"a", 3, 2⟩ "cmd" .kMosaic false).draw (some ⟨7, 5⟩) 7 100 200
        = .ok (CtrlImage.create ⟨"a", 3, 2⟩ "cmd" .kMosaic false, blits)
      ∧ blits.length = 9 := by
  obtain ⟨blits, h1, h2, _⟩ := draw_mosaic_tiles
    (CtrlImage.create ⟨"a", 3, 2⟩ "cmd" .kMosaic false) 7 7 5 100 200 rfl
    (by decide) (by decide) (by decide) (by decide) (by decide) (by decide)
  refine ⟨blits, h1, ?_⟩
  have e1 : ⌈((7 : Int) : ℚ) / ((3 : Int) : ℚ)⌉ = 3 := by
    rw [Int.ceil_eq_iff]
    norm_num
  have e2 : ⌈((5 : Int) : ℚ) / ((2 : Int) : ℚ)⌉ = 3 := by
    rw [Int.ceil_eq_iff]
    norm_num
  have h3 : (blits.length : Int) = ⌈((7 : Int) : ℚ) / ((3 : Int) : ℚ)⌉
      * ⌈((5 : Int) : ℚ) / ((2 : Int) : ℚ)⌉ := h2
  rw [e1, e2] at h3
  omega

theorem tile_covers_iff (img : OSGraphics) (W H xDest yDest : Int)
    (hiw : 0 < img.getWidth) (hih : 0 < img.getHeight) (i j : Nat) (px py : Int) :
    (Blit.mk img 0 0 (xDest + i * img.getWidth) (yDest + j * img.getHeight)
        (some (__MIN (W - i * img.getWidth) img.getWidth,
               __MIN (H - j * img.getHeight) img.getHeight))).covers px py
      ↔ ((xDest ≤ px ∧ px < xDest + W ∧ (px - xDest) / img.getWidth = (i : Int))
          ∧ (yDest ≤ py ∧ py < yDest + H ∧ (py - yDest) / img.getHeight = (j : Int))) := by
  rw [← tile_span xDest W _ hiw i px, ← tile_span yDest H _ hih j py]
  have hx : __MIN (W - i * img.getWidth) img.getWidth ≤ img.getWidth := by
    unfold __MIN
    split_ifs <;> omega
  have hy : __MIN (H - j * img.getHeight) img.getHeight ≤ img.getHeight := by
    unfold __MIN
    split_ifs <;> omega
  simp only [Blit.covers]
  constructor
  · rintro ⟨⟨h1, h2, -, -⟩, ⟨h3, h4, -, -⟩⟩
    exact ⟨⟨h1, h2⟩, ⟨h3, h4⟩⟩
  · rintro ⟨⟨h1, h2⟩, ⟨h3, h4⟩⟩
    exact ⟨⟨h1, h2, by omega, by omega⟩, ⟨h3, h4, by omega, by omega⟩⟩

/-- C9: under Mosaic, with a surface of positive size (iw, ih), bounds W > 0,
H > 0 and the rectangle [xDest, xDest + W) x [yDest, yDest + H) within the int
range, draw returns and every blit it issues copies the surface from its
origin, with the width and height clipped to what remains of the bounds to the
right of and below the point where the blit starts (so never more than the
surface holds, and never past the bounds); no coordinate of a blit leaves the
int range; every blit starts at the left edge
or where a blit of full width to its left ends, and at the top edge or where a
blit of full height above it ends; the rectangles written by the blits are
pairwise disjoint, and a point is written by some blit exactly when it lies in
[xDest, xDest + W) x [yDest, yDest + H). -/
theorem draw_mosaic_exact_cover (c : CtrlImage) (fuel : Nat) (W H xDest yDest : Int)
    (hpol : c.m_resizeMethod = .kMosaic)
    (hiw : 0 < c.m_pImage.getWidth) (hih : 0 < c.m_pImage.getHeight)
    (hW : 0 < W) (hH : 0 < H) (hfuelW : W.toNat ≤ fuel) (hfuelH : H.toNat ≤ fuel)
    (hxlo : -2147483648 ≤ xDest) (hxhi : xDest + W ≤ 2147483647)
    (hylo : -2147483648 ≤ yDest) (hyhi : yDest + H ≤ 2147483647) :
    ∃ blits, c.draw (some ⟨W, H⟩) fuel xDest yDest = .ok (c, blits)
      ∧ (∀ b ∈ blits, b.src = c.m_pImage ∧ b.xSrc = 0 ∧ b.ySrc = 0
          ∧ xDest ≤ b.xDest ∧ b.xDest < xDest + W ∧ yDest ≤ b.yDest ∧ b.yDest < yDest + H
          ∧ b.size = some (__MIN (xDest + W - b.xDest) c.m_pImage.getWidth,
                           __MIN (yDest + H - b.yDest) c.m_pImage.getHeight))
      ∧ (∀ b ∈ blits, ∀ w h, b.size = some (w, h) →
          -2147483648 ≤ b.xDest ∧ b.xDest + w ≤ 2147483647
            ∧ -2147483648 ≤ b.yDest ∧ b.yDest + h ≤ 2147483647)
      ∧ (∀ b ∈ blits,
          (b.xDest = xDest ∨ ∃ a ∈ blits, ∃ ah, a.size = some (c.m_pImage.getWidth, ah)
              ∧ a.yDest = b.yDest ∧ a.xDest + c.m_pImage.getWidth = b.xDest)
          ∧ (b.yDest = yDest ∨ ∃ a ∈ blits, ∃ aw, a.size = some (aw, c.m_pImage.getHeight)
              ∧ a.xDest = b.xDest ∧ a.yDest + c.m_pImage.getHeight = b.yDest))
      ∧ blits.Pairwise (fun a b => ∀ px py, ¬ (a.covers px py ∧ b.covers px py))
      ∧ ∀ px py, (∃ b ∈ blits, b.covers px py)
          ↔ (xDest ≤ px ∧ px < xDest + W ∧ yDest ≤ py ∧ py < yDest + H) := by
  obtain ⟨hWlo, hWn⟩ := tileCount_bounds W _ hiw hW
  obtain ⟨hHlo, hHn⟩ := tileCount_bounds H _ hih hH
  have hmem : ∀ b, b ∈ (List.range (tileCount W c.m_pImage.getWidth)).flatMap (fun i : Nat =>
        (List.range (tileCount H c.m_pImage.getHeight)).map (fun j : Nat =>
          Blit.mk c.m_pImage 0 0 (xDest + i * c.m_pImage.getWidth)
            (yDest + j * c.m_pImage.getHeight)
            (some (__MIN (W - i * c.m_pImage.getWidth) c.m_pImage.getWidth,
                   __MIN (H - j * c.m_pImage.getHeight) c.m_pImage.getHeight))))
      ↔ ∃ i j : Nat, i < tileCount W c.m_pImage.getWidth ∧ j < tileCount H c.m_pImage.getHeight
          ∧ b = Blit.mk c.m_pImage 0 0 (xDest + i * c.m_pImage.getWidth)
            (yDest + j * c.m_pImage.getHeight)
            (some (__MIN (W - i * c.m_pImage.getWidth) c.m_pImage.getWidth,
                   __MIN (H - j * c.m_pImage.getHeight) c.m_pImage.getHeight)) := by
    intro b
    simp only [List.mem_flatMap, List.mem_map, List.mem_range]
    constructor
    · rintro ⟨i, hi, j, hj, rfl⟩
      exact ⟨i, j, hi, hj, rfl⟩
    · rintro ⟨i, j, hi, hj, rfl⟩
      exact ⟨i, hi, j, hj, rfl⟩
  have hstart : ∀ (total tile : Int) (n i : Nat), 0 < tile → i < n →
      ((n : Int) - 1) * tile < total → (i : Int) * tile < total := by
    intro total tile n i ht hi hlt
    have h1 : (i : Int) * tile ≤ ((n : Int) - 1) * tile :=
      Int.mul_le_mul_of_nonneg_right (by omega) ht.le
    omega
  refine ⟨_, draw_mosaic_eq c fuel W H xDest yDest hpol hiw hih hW hH hfuelW hfuelH,
    ?_, ?_, ?_, ?_, ?_⟩
  · intro b hb
    obtain ⟨i, j, hi, hj, rfl⟩ := (hmem b).mp hb
    have hix := hstart W _ _ i hiw hi hWlo
    have hjy := hstart H _ _ j hih hj hHlo
    have hi0 : (0 : Int) ≤ (i : Int) * c.m_pImage.getWidth := by positivity
    have hj0 : (0 : Int) ≤ (j : Int) * c.m_pImage.getHeight := by positivity
    refine ⟨rfl, rfl, rfl, by simp only; omega, by simp only; omega, by simp only; omega,
      by simp only; omega, ?_⟩
    simp only
    rw [show xDest + W - (xDest + (i : Int) * c.m_pImage.getWidth)
          = W - (i : Int) * c.m_pImage.getWidth by ring,
      show yDest + H - (yDest + (j : Int) * c.m_pImage.getHeight)
          = H - (j : Int) * c.m_pImage.getHeight by ring]
  · intro b hb w h hsize
    obtain ⟨i, j, hi, hj, rfl⟩ := (hmem b).mp hb
    have hix := hstart W _ _ i hiw hi hWlo
    have hjy := hstart H _ _ j hih hj hHlo
    have hi0 : (0 : Int) ≤ (i : Int) * c.m_pImage.getWidth := by positivity
    have hj0 : (0 : Int) ≤ (j : Int) * c.m_pImage.getHeight := by positivity
    have hx : __MIN (W - i * c.m_pImage.getWidth) c.m_pImage.getWidth
        ≤ W - i * c.m_pImage.getWidth := by
      unfold __MIN
      split_ifs <;> omega
    have hy : __MIN (H - j * c.m_pImage.getHeight) c.m_pImage.getHeight
        ≤ H - j * c.m_pImage.getHeight := by
      unfold __MIN
      split_ifs <;> omega
    simp only [Option.some.injEq, Prod.mk.injEq] at hsize
    obtain ⟨rfl, rfl⟩ := hsize
    simp only
    refine ⟨by omega, by omega, by omega, by omega⟩
  · intro b hb
    obtain ⟨i, j, hi, hj, rfl⟩ := (hmem b).mp hb
    constructor
    · rcases Nat.eq_zero_or_pos i with h0 | hpos
      · left
        subst h0
        simp
      · right
        refine ⟨_, (hmem _).mpr ⟨i - 1, j, by omega, hj, rfl⟩,
          __MIN (H - (j : Int) * c.m_pImage.getHeight) c.m_pImage.getHeight, ?_, rfl, ?_⟩
        · rw [min_last_tile W _ hiw hW (i - 1) (by omega), if_pos (by omega)]
        · simp only
          have hc : ((i - 1 : Nat) : Int) = (i : Int) - 1 := by omega
          rw [hc]
          ring
    · rcases Nat.eq_zero_or_pos j with h0 | hpos
      · left
        subst h0
        simp
      · right
        refine ⟨_, (hmem _).mpr ⟨i, j - 1, hi, by omega, rfl⟩,
          __MIN (W - (i : Int) * c.m_pImage.getWidth) c.m_pImage.getWidth, ?_, rfl, ?_⟩
        · rw [min_last_tile H _ hih hH (j - 1) (by omega), if_pos (by omega)]
        · simp only
          have hc : ((j - 1 : Nat) : Int) = (j : Int) - 1 := by omega
          rw [hc]
          ring
  · rw [List.pairwise_flatMap]
    constructor
    · intro i _
      rw [List.pairwise_map]
      refine List.Pairwise.imp ?_ (List.pairwise_lt_range _)
      intro j1 j2 hlt px py hboth
      rw [tile_covers_iff _ W H xDest yDest hiw hih, tile_covers_iff _ W H xDest yDest hiw hih]
        at hboth
      omega
    · refine List.Pairwise.imp ?_ (List.pairwise_lt_range _)
      intro i1 i2 hlt a ha b hb px py hboth
      obtain ⟨j1, _, rfl⟩ := List.mem_map.mp ha
      obtain ⟨j2, _, rfl⟩ := List.mem_map.mp hb
      rw [tile_covers_iff _ W H xDest yDest hiw hih, tile_covers_iff _ W H xDest yDest hiw hih]
        at hboth
      omega
  · intro px py
    constructor
    · rintro ⟨b, hb, hcov⟩
      obtain ⟨i, j, -, -, rfl⟩ := (hmem b).mp hb
      rw [tile_covers_iff _ W H xDest yDest hiw hih] at hcov
      omega
    · rintro ⟨hx1, hx2, hy1, hy2⟩
      have hi0 : 0 ≤ (px - xDest) / c.m_pImage.getWidth := Int.ediv_nonneg (by omega) hiw.le
      have hj0 : 0 ≤ (py - yDest) / c.m_pImage.getHeight := Int.ediv_nonneg (by omega) hih.le
      have hi1 : (px - xDest) / c.m_pImage.getWidth < (tileCount W c.m_pImage.getWidth : Int) :=
        Int.ediv_lt_of_lt_mul hiw (by omega)
      have hj1 : (py - yDest) / c.m_pImage.getHeight < (tileCount H c.m_pImage.getHeight : Int) :=
        Int.ediv_lt_of_lt_mul hih (by omega)
      refine ⟨_, (hmem _).mpr ⟨((px - xDest) / c.m_pImage.getWidth).toNat,
        ((py - yDest) / c.m_pImage.getHeight).toNat, by omega, by omega, rfl⟩, ?_⟩
      rw [tile_covers_iff _ W H xDest yDest hiw hih]
      refine ⟨⟨hx1, hx2, ?_⟩, ⟨hy1, hy2, ?_⟩⟩
      · exact (Int.toNat_of_nonneg hi0).symm
      · exact (Int.toNat_of_nonneg hj0).symm

theorem draw_mosaic_exact_cover_witness :
    ∃ blits, (CtrlImage.create ⟨"a", 3, 2⟩ "cmd" .kMosaic false).draw (some ⟨7, 5⟩) 7 100 200
        = .ok (CtrlImage.create ⟨"a", 3, 2⟩ "cmd" .kMosaic false, blits)
      ∧ ((∃ b ∈ blits, b.covers 106 204) ∧ ¬ (∃ b ∈ blits, b.covers 107 204)) := by
  obtain ⟨blits, h1, _, _, _, _, h3⟩ := draw_mosaic_exact_cover
    (CtrlImage.create ⟨"a", 3, 2⟩ "cmd" .kMosaic false) 7 7 5 100 200 rfl
    (by decide) (by decide) (by decide) (by decide) (by decide) (by decide)
    (by decide) (by decide) (by decide) (by decide)
  refine ⟨blits, h1, (h3 106 204).mpr (by decide), ?_⟩
  rw [h3 107 204]
  decide

/-! ## onUpdate -/

theorem draw_original (pPos : Option Position) (fuel : Nat) (c c' : CtrlImage)
    (xDest yDest : Int) (blits : List Blit)
    (h : c.draw pPos fuel xDest yDest = .ok (c', blits)) :
    c'.m_pOriginalBitmap = c.m_pOriginalBitmap := by
  cases pPos with
  | none =>
    simp only [CtrlImage.draw, Except.ok.injEq, Prod.mk.injEq] at h
    rw [← h.1]
  | some pos =>
    by_cases h1 : pos.getWidth ≤ 0 ∨ pos.getHeight ≤ 0
    · simp only [CtrlImage.draw, h1, if_true, Except.ok.injEq, Prod.mk.injEq] at h
      rw [← h.1]
    by_cases h2 : c.m_resizeMethod = .kScale
    · simp only [CtrlImage.draw, h1, h2, if_true, if_false, Except.ok.injEq, Prod.mk.injEq] at h
      rw [← h.1]
    by_cases h3 : c.m_resizeMethod = .kMosaic
    · simp only [CtrlImage.draw, h1, h3, reduceCtorEq, if_true, if_false] at h
      cases hm : mosaicOuter c.m_pImage pos.getHeight yDest fuel fuel xDest pos.getWidth with
      | error e =>
        rw [hm] at h
        exact absurd h (by simp [Except.map])
      | ok bl =>
        rw [hm] at h
        simp only [Except.map, Except.ok.injEq, Prod.mk.injEq] at h
        rw [← h.1]
    by_cases h4 : c.m_resizeMethod = .kScaleAndRatioPreserved
    · by_cases hw0 : c.m_pBitmap.getWidth = 0
      · simp only [CtrlImage.draw, h1, h2, h3, h4, hw0, if_true, if_false, idiv, bind,
          Except.bind, reduceCtorEq] at h
      by_cases hh0 : c.m_pBitmap.getHeight = 0
      · simp only [CtrlImage.draw, h1, h2, h3, h4, hw0, hh0, if_true, if_false, idiv, bind,
          Except.bind, reduceCtorEq] at h
      simp only [CtrlImage.draw, h1, h2, h3, h4, hw0, hh0, if_true, if_false, idiv, bind,
        Except.bind, pure, Except.pure, reduceCtorEq, Except.ok.injEq, Prod.mk.injEq] at h
      rw [← h.1]
    · simp only [CtrlImage.draw, h1, h2, h3, h4, if_false, Except.ok.injEq, Prod.mk.injEq] at h
      rw [← h.1]

theorem call_original (getArtBitmap : String → Option GenericBitmap) (streamArtVar : Nat)
    (pPos : Option Position) (fuel : Nat) (c c' : CtrlImage) (k : Call)
    (h : c.call getArtBitmap streamArtVar pPos fuel k = .ok c') :
    c'.m_pOriginalBitmap = c.m_pOriginalBitmap := by
  cases k with
  | draw xDest yDest =>
    simp only [CtrlImage.call] at h
    cases hd : c.draw pPos fuel xDest yDest with
    | error e => simp [hd, Except.map] at h
    | ok r =>
      obtain ⟨c1, bl⟩ := r
      simp only [hd, Except.map, Except.ok.injEq] at h
      rw [← h]
      exact draw_original pPos fuel c c1 xDest yDest bl hd
  | onUpdate v =>
    simp only [CtrlImage.call, Except.ok.injEq] at h
    rw [← h]
    unfold CtrlImage.onUpdate
    split_ifs <;> rfl

theorem calls_original (getArtBitmap : String → Option GenericBitmap) (streamArtVar : Nat)
    (pPos : Option Position) (fuel : Nat) (ks : List Call) : ∀ (c c' : CtrlImage),
    c.calls getArtBitmap streamArtVar pPos fuel ks = .ok c' →
    c'.m_pOriginalBitmap = c.m_pOriginalBitmap := by
  induction ks with
  | nil =>
    intro c c' h
    simp only [CtrlImage.calls, Except.ok.injEq] at h
    rw [h]
  | cons k ks ih =>
    intro c c' h
    simp only [CtrlImage.calls] at h
    cases hk : c.call getArtBitmap streamArtVar pPos fuel k with
    | error e => simp [hk] at h
    | ok c1 =>
      simp only [hk] at h
      rw [ih c1 c' h, call_original getArtBitmap streamArtVar pPos fuel c c1 k hk]

/-- C6: when the stream-art variable delivers a path, after onUpdate the active
bitmap is the entry of the art cache for that path if there is one, and the
original bitmap otherwise, whatever the active bitmap was; onUpdate does not
change the original bitmap, which in every state reached from construction is
the bitmap given at construction. -/
theorem onUpdate_active_bitmap (getArtBitmap : String → Option GenericBitmap)
    (streamArtVar : Nat) (c : CtrlImage) (rVariable : VarString)
    (hvar : rVariable.addr = streamArtVar) :
    (∀ art, getArtBitmap rVariable.get = some art →
        (c.onUpdate getArtBitmap streamArtVar rVariable).1.m_pBitmap = art)
      ∧ (getArtBitmap rVariable.get = none →
        (c.onUpdate getArtBitmap streamArtVar rVariable).1.m_pBitmap = c.m_pOriginalBitmap)
      ∧ (c.onUpdate getArtBitmap streamArtVar rVariable).1.m_pOriginalBitmap
          = c.m_pOriginalBitmap
      ∧ (∀ (rBitmap : GenericBitmap) (rCommand : String) (resizeMethod : resize_t) (art : Bool)
          (pPos : Option Position) (fuel : Nat) (ks : List Call),
          (CtrlImage.create rBitmap rCommand resizeMethod art).calls getArtBitmap streamArtVar
            pPos fuel ks = .ok c →
          c.m_pOriginalBitmap = rBitmap) := by
  refine ⟨?_, ?_, ?_, ?_⟩
  · intro art hart
    simp only [CtrlImage.onUpdate, hvar, if_true, hart]
  · intro hnone
    simp only [CtrlImage.onUpdate, hvar, if_true, hnone]
  · simp only [CtrlImage.onUpdate, hvar, if_true]
  · intro rBitmap rCommand resizeMethod art pPos fuel ks hreach
    exact calls_original getArtBitmap streamArtVar pPos fuel ks _ c hreach

theorem onUpdate_active_bitmap_witness :
    ((CtrlImage.create ⟨"a", 3, 2⟩ "cmd" .kScale true).onUpdate
        (fun s => if s = "art.png" then some ⟨"art", 8, 8⟩ else none) 5
        ⟨5, "missing.png"⟩).1.m_pBitmap = ⟨"a", 3, 2⟩ :=
  (onUpdate_active_bitmap (fun s => if s = "art.png" then some ⟨"art", 8, 8⟩ else none) 5
    (CtrlImage.create ⟨"a", 3, 2⟩ "cmd" .kScale true) ⟨5, "missing.png"⟩ rfl).2.1 (by decide)

/-! ## The size of the surface along sequences of calls -/

theorem call_surfaceInv (getArtBitmap : String → Option GenericBitmap) (streamArtVar : Nat)
    (W H : Int) (fuel : Nat) (hW : 0 < W) (hH : 0 < H)
    (hfuelW : W.toNat ≤ fuel) (hfuelH : H.toNat ≤ fuel)
    (hcache : ∀ s a, getArtBitmap s = some a → 0 < a.getWidth ∧ 0 < a.getHeight)
    (c : CtrlImage) (drawn : Bool) (k : Call)
    (hcfits : c.m_resizeMethod = .kScaleAndRatioPreserved →
      ∀ s a, getArtBitmap s = some a → fitsInt W H a)
    (hinv : SurfaceInv W H c drawn) :
    ∃ c', c.call getArtBitmap streamArtVar (some ⟨W, H⟩) fuel k = .ok c'
      ∧ c'.m_resizeMethod = c.m_resizeMethod
      ∧ SurfaceInv W H c' (drawnAfter streamArtVar drawn k) := by
  obtain ⟨hbmp, horig, hfits, hmos, hdrawn, hfresh⟩ := hinv
  cases k with
  | draw xDest yDest =>
    cases hpol : c.m_resizeMethod with
    | kScale =>
      obtain ⟨c', hd, hb, ho, hp, hw, hh⟩ := draw_scale_cases c fuel W H xDest yDest hpol hW hH
      refine ⟨c', ?_, by rw [hp, hpol], ?_⟩
      · simp only [CtrlImage.call, hd, Except.map]
      · rw [hpol] at hp
        refine ⟨by rw [hb]; exact hbmp, by rw [ho]; exact horig, ?_, ?_, ?_, ?_⟩
        · intro hm
          rw [hp] at hm
          exact absurd hm (by decide)
        · intro hm
          rw [hp] at hm
          exact absurd hm (by decide)
        · intro _
          simp only [specRequiredSize, hp, hw, hh]
        · intro hf
          exact absurd hf (by simp [drawnAfter])
    | kMosaic =>
      have hsz := hmos hpol
      simp only [Prod.mk.injEq] at hsz
      have hd := draw_mosaic_eq c fuel W H xDest yDest hpol (by rw [hsz.1]; exact hbmp.1)
        (by rw [hsz.2]; exact hbmp.2) hW hH hfuelW hfuelH
      refine ⟨c, ?_, hpol, ?_⟩
      · simp only [CtrlImage.call, hd, Except.map]
      · refine ⟨hbmp, horig, hfits, hmos, ?_, ?_⟩
        · intro _
          simp only [specRequiredSize, hpol, hsz.1, hsz.2]
        · intro hf
          exact absurd hf (by simp [drawnAfter])
    | kScaleAndRatioPreserved =>
      obtain ⟨hfb, hfo⟩ := hfits hpol
      obtain ⟨c', hd, hb, ho, hp, hsz⟩ := draw_ratio_fitted c fuel W H xDest yDest hpol
        hbmp.1 hbmp.2 hW hH hfb
      refine ⟨c', ?_, by rw [hp, hpol], ?_⟩
      · simp only [CtrlImage.call, hd, Except.map]
      · rw [hpol] at hp
        refine ⟨by rw [hb]; exact hbmp, by rw [ho]; exact horig, ?_, ?_, ?_, ?_⟩
        · intro _
          rw [hb, ho]
          exact ⟨hfb, hfo⟩
        · intro hm
          rw [hp] at hm
          exact absurd hm (by decide)
        · intro _
          simp only [specRequiredSize, hp, hb, hsz]
        · intro hf
          exact absurd hf (by simp [drawnAfter])
  | onUpdate v =>
    by_cases hv : v.addr = streamArtVar
    · have hpos : ∀ b : GenericBitmap, (match getArtBitmap v.get with
            | some art => art
            | none => c.m_pOriginalBitmap) = b →
          (0 < b.getWidth ∧ 0 < b.getHeight)
            ∧ (c.m_resizeMethod = .kScaleAndRatioPreserved → fitsInt W H b) := by
        intro b hb
        cases hg : getArtBitmap v.get with
        | none =>
          rw [hg] at hb
          rw [← hb]
          exact ⟨horig, fun hp => (hfits hp).2⟩
        | some art =>
          rw [hg] at hb
          rw [← hb]
          exact ⟨hcache _ _ hg, fun hp => hcfits hp _ _ hg⟩
      refine ⟨_, rfl, ?_, ?_⟩
      · simp only [CtrlImage.onUpdate, hv, if_true]
      · simp only [CtrlImage.onUpdate, hv, if_true, drawnAfter, SurfaceInv, ne_eq,
          not_true_eq_false, decide_False, Bool.and_false, Bool.false_eq_true, false_implies,
          true_implies, true_and, and_true]
        exact ⟨(hpos _ rfl).1, horig, fun hp => ⟨(hpos _ rfl).2 hp, (hfits hp).2⟩,
          fun _ => rfl, rfl⟩
    · refine ⟨c, ?_, rfl, ?_⟩
      · simp only [CtrlImage.call, CtrlImage.onUpdate, hv, if_false]
      · have hd : drawnAfter streamArtVar drawn (.onUpdate v) = drawn := by
          simp [drawnAfter, hv]
        rw [hd]
        exact ⟨hbmp, horig, hfits, hmos, hdrawn, hfresh⟩

theorem calls_surfaceInv (getArtBitmap : String → Option GenericBitmap) (streamArtVar : Nat)
    (W H : Int) (fuel : Nat) (hW : 0 < W) (hH : 0 < H)
    (hfuelW : W.toNat ≤ fuel) (hfuelH : H.toNat ≤ fuel)
    (hcache : ∀ s a, getArtBitmap s = some a → 0 < a.getWidth ∧ 0 < a.getHeight)
    (ks : List Call) : ∀ (c : CtrlImage) (drawn : Bool),
    (c.m_resizeMethod = .kScaleAndRatioPreserved →
      ∀ s a, getArtBitmap s = some a → fitsInt W H a) →
    SurfaceInv W H c drawn →
    ∃ c', c.calls getArtBitmap streamArtVar (some ⟨W, H⟩) fuel ks = .ok c'
      ∧ c'.m_resizeMethod = c.m_resizeMethod
      ∧ SurfaceInv W H c' (ks.foldl (drawnAfter streamArtVar) drawn) := by
  induction ks with
  | nil =>
    intro c drawn _ hinv
    exact ⟨c, rfl, rfl, hinv⟩
  | cons k ks ih =>
    intro c drawn hcfits hinv
    obtain ⟨c1, hk, hp1, hinv1⟩ := call_surfaceInv getArtBitmap streamArtVar W H fuel hW hH
      hfuelW hfuelH hcache c drawn k hcfits hinv
    obtain ⟨c2, hks, hp2, hinv2⟩ := ih c1 _ (fun hp => hcfits (by rw [← hp1]; exact hp)) hinv1
    refine ⟨c2, ?_, by rw [hp2, hp1], hinv2⟩
    simp only [CtrlImage.calls, hk, hks]

/-- C10, the claim as stated fails: a Scale control built from a 1 x 1 bitmap
under 2 x 2 bounds has a 1 x 1 surface right after construction, and again
after a draw followed by an onUpdate of the stream-art variable, while the
policy requires 2 x 2. -/
theorem surface_size_not_invariant :
    ∃ c0 c1,
      (CtrlImage.create ⟨"a", 1, 1⟩ "cmd" .kScale true).calls (fun _ => none) 0
          (some ⟨2, 2⟩) 2 [] = .ok c0
      ∧ (c0.m_pImage.getWidth, c0.m_pImage.getHeight) = (1, 1)
      ∧ specRequiredSize c0 2 2 = (2, 2)
      ∧ (CtrlImage.create ⟨"a", 1, 1⟩ "cmd" .kScale true).calls (fun _ => none) 0
          (some ⟨2, 2⟩) 2 [.draw 0 0, .onUpdate ⟨0, "art.png"⟩] = .ok c1
      ∧ (c1.m_pImage.getWidth, c1.m_pImage.getHeight) = (1, 1)
      ∧ specRequiredSize c1 2 2 = (2, 2) :=
  ⟨_, _, rfl, rfl, rfl, rfl, rfl, rfl⟩

/-- C10 as amended: with fixed bounds W > 0, H > 0 and bitmaps of positive
size (w0, h0), whose products W * h0 and H * w0 fit in a 32-bit int when the
policy is ScaleAndRatioPreserved, every sequence of draw and onUpdate calls on
a new control returns, and in the state it reaches the surface has the size
the resize policy requires ((W, H) for Scale, the native size of the active
bitmap for Mosaic, the fitted size for ScaleAndRatioPreserved) whenever the
policy is Mosaic or a draw has been called with no onUpdate of the stream-art
variable after it; otherwise the surface has the native size of the active
bitmap. -/
theorem surface_size_after_calls (getArtBitmap : String → Option GenericBitmap)
    (streamArtVar : Nat) (rBitmap : GenericBitmap) (rCommand : String)
    (resizeMethod : resize_t) (art : Bool) (W H : Int) (fuel : Nat) (ks : List Call)
    (hW : 0 < W) (hH : 0 < H) (hfuelW : W.toNat ≤ fuel) (hfuelH : H.toNat ≤ fuel)
    (hbitmap : 0 < rBitmap.getWidth ∧ 0 < rBitmap.getHeight)
    (hcache : ∀ s a, getArtBitmap s = some a → 0 < a.getWidth ∧ 0 < a.getHeight)
    (hfits : resizeMethod = .kScaleAndRatioPreserved →
      fitsInt W H rBitmap ∧ ∀ s a, getArtBitmap s = some a → fitsInt W H a) :
    ∃ c, (CtrlImage.create rBitmap rCommand resizeMethod art).calls getArtBitmap streamArtVar
          (some ⟨W, H⟩) fuel ks = .ok c
      ∧ ((resizeMethod = .kMosaic ∨ drawnSinceUpdate streamArtVar ks = true) →
          (c.m_pImage.getWidth, c.m_pImage.getHeight) = specRequiredSize c W H)
      ∧ (drawnSinceUpdate streamArtVar ks = false →
          (c.m_pImage.getWidth, c.m_pImage.getHeight)
            = (c.m_pBitmap.getWidth, c.m_pBitmap.getHeight)) := by
  have hinit : SurfaceInv W H (CtrlImage.create rBitmap rCommand resizeMethod art) false :=
    ⟨hbitmap, hbitmap, fun hp => ⟨(hfits hp).1, (hfits hp).1⟩, fun _ => rfl,
      fun h => absurd h (by decide), fun _ => rfl⟩
  obtain ⟨c, hc, hp, -, -, -, hmos, hdrawn, hfresh⟩ := calls_surfaceInv getArtBitmap
    streamArtVar W H fuel hW hH hfuelW hfuelH hcache ks _ false
    (fun hp => (hfits hp).2) hinit
  refine ⟨c, hc, ?_, hfresh⟩
  rintro (hm | hd)
  · have hpc : c.m_resizeMethod = .kMosaic := by rw [hp]; exact hm
    rw [hmos hpc]
    simp only [specRequiredSize, hpc]
  · exact hdrawn hd

theorem surface_size_after_calls_witness :
    ∃ c, (CtrlImage.create ⟨"a", 3, 2⟩ "cmd" .kScaleAndRatioPreserved true).calls
          (fun s => if s = "art.png" then some ⟨"art", 8, 8⟩ else none) 5
          (some ⟨7, 5⟩) 7 [.draw 0 0, .onUpdate ⟨5, "art.png"⟩, .draw 1 1] = .ok c
      ∧ (c.m_pImage.getWidth, c.m_pImage.getHeight) = specRequiredSize c 7 5 := by
  have hentry : ∀ (s : String) (a : GenericBitmap),
      (if s = "art.png" then some (⟨"art", 8, 8⟩ : GenericBitmap) else none) = some a →
      a = ⟨"art", 8, 8⟩ := by
    intro s a h
    by_cases hs : s = "art.png"
    · simp only [hs, if_true, Option.some.injEq] at h
      exact h.symm
    · simp only [hs, if_false] at h
      exact absurd h (by simp)
  obtain ⟨c, h1, h2, _⟩ := surface_size_after_calls
    (fun s => if s = "art.png" then some ⟨"art", 8, 8⟩ else none) 5 ⟨"a", 3, 2⟩ "cmd"
    .kScaleAndRatioPreserved true 7 5 7 [.draw 0 0, .onUpdate ⟨5, "art.png"⟩, .draw 1 1]
    (by decide) (by decide) (by decide) (by decide) (by decide)
    (by
      intro s a h
      rw [hentry s a h]
      decide)
    (by
      intro _
      refine ⟨by decide, ?_⟩
      intro s a h
      rw [hentry s a h]
      decide)
  exact ⟨c, h1, h2 (Or.inr rfl)⟩

end Skins2
